import Mathlib

/-!
# Verification of the ECG-to-Music signal-to-control pipeline

Shallow embedding of the BPM→MIDI mapping code of the repository
`OliverACollins/ECG-to-Music` (files `live_bridges/bridge_live_test.py`,
`live_bridges/bridge_live_test3.py`,
`prerecorded_bridges/bridge_prerecorded_modulation.py`).

Python floats are modelled as exact rationals (`ℚ`); Python integers as `ℤ`.
Fallible code (expressions that raise at runtime, such as the `0.0/0.0`
division followed by `int(round(nan))` in the mapper functions when
`max_bpm == min_bpm`) is modelled with `Option`, `none` meaning the
computation raises.
-/

/-- Python 3 `round()` (and NumPy rounding): round half to even
("banker's rounding").  `round(2.5) = 2`, `round(3.5) = 4`. -/
def pyRound (x : ℚ) : ℤ :=
  if x - (⌊x⌋ : ℚ) < 1/2 then ⌊x⌋
  else if 1/2 < x - (⌊x⌋ : ℚ) then ⌊x⌋ + 1
  else if 2 ∣ ⌊x⌋ then ⌊x⌋ else ⌊x⌋ + 1

/-- Python `int()` on a float: truncation toward zero. -/
def pyTrunc (x : ℚ) : ℤ :=
  if 0 ≤ x then ⌊x⌋ else -⌊-x⌋

/-- NumPy clip: `np.clip(x, lo, hi) = minimum(maximum(x, lo), hi)` (the upper bound is
applied last, so `lo > hi` yields `hi`). -/
def npClip (x lo hi : ℚ) : ℚ := min (max x lo) hi

/-- The normalization step shared verbatim by all three mapper functions:
`bpm = np.clip(bpm, min_bpm, max_bpm); norm = (bpm - min_bpm) / (max_bpm - min_bpm)`. -/
def normQ (bpm min_bpm max_bpm : ℚ) : ℚ :=
  (npClip bpm min_bpm max_bpm - min_bpm) / (max_bpm - min_bpm)

/-- Floor of the square root, `⌊√q⌋`, for a rational `q ≥ 0`, computed with the natural-number square
root (`ratSqrtFloor_eq_floor_real_sqrt` below identifies it with the real
square root). -/
def ratSqrtFloor (q : ℚ) : ℤ := (Nat.sqrt ⌊q⌋.toNat : ℤ)

theorem pyRound_le (x : ℚ) : (pyRound x : ℚ) ≤ x + 1/2 := by
  have h1 : ((⌊x⌋ : ℤ) : ℚ) ≤ x := Int.floor_le x
  have h2 : x < (⌊x⌋ : ℚ) + 1 := Int.lt_floor_add_one x
  unfold pyRound
  split_ifs <;> push_cast <;> linarith

theorem pyRound_ge (x : ℚ) : x - 1/2 ≤ (pyRound x : ℚ) := by
  have h1 : ((⌊x⌋ : ℤ) : ℚ) ≤ x := Int.floor_le x
  have h2 : x < (⌊x⌋ : ℚ) + 1 := Int.lt_floor_add_one x
  unfold pyRound
  split_ifs with h3 h4 <;> push_cast <;> push_neg at * <;> linarith

theorem pyRound_mono {x y : ℚ} (h : x ≤ y) : pyRound x ≤ pyRound y := by
  by_contra hc
  push_neg at hc
  have h1 : (pyRound y : ℚ) + 1 ≤ (pyRound x : ℚ) := by exact_mod_cast hc
  have h2 := pyRound_le x
  have h3 := pyRound_ge y
  have hyx : y ≤ x := by linarith
  have hxy : x = y := le_antisymm h hyx
  rw [hxy] at hc
  exact lt_irrefl _ hc

theorem pyRound_intCast (n : ℤ) : pyRound (n : ℚ) = n := by
  unfold pyRound
  rw [Int.floor_intCast]
  norm_num

theorem pyTrunc_of_nonneg {x : ℚ} (h : 0 ≤ x) : pyTrunc x = ⌊x⌋ := by
  unfold pyTrunc
  rw [if_pos h]

theorem npClip_le_right {x lo hi : ℚ} : npClip x lo hi ≤ hi := min_le_right _ _

theorem npClip_ge_left {x lo hi : ℚ} (h : lo ≤ hi) : lo ≤ npClip x lo hi :=
  le_min (le_trans (le_max_right x lo) (le_refl _)) h

theorem npClip_mono {x y lo hi : ℚ} (h : x ≤ y) : npClip x lo hi ≤ npClip y lo hi :=
  min_le_min (max_le_max h (le_refl lo)) (le_refl hi)

theorem normQ_nonneg {b mn mx : ℚ} (h : mn < mx) : 0 ≤ normQ b mn mx := by
  unfold normQ
  apply div_nonneg
  · have := @npClip_ge_left b mn mx (le_of_lt h)
    linarith
  · linarith

theorem normQ_le_one {b mn mx : ℚ} (h : mn < mx) : normQ b mn mx ≤ 1 := by
  unfold normQ
  rw [div_le_one (by linarith)]
  have := @npClip_le_right b mn mx
  linarith

theorem normQ_mono {b1 b2 mn mx : ℚ} (h : mn < mx) (hb : b1 ≤ b2) :
    normQ b1 mn mx ≤ normQ b2 mn mx := by
  unfold normQ
  apply div_le_div_of_nonneg_right _ (by linarith)
  · have := @npClip_mono b1 b2 mn mx hb
    linarith

theorem normQ_at_min {mn mx : ℚ} (h : mn < mx) : normQ mn mn mx = 0 := by
  unfold normQ npClip
  rw [max_self, min_eq_left (le_of_lt h), sub_self, zero_div]

theorem normQ_at_max {mn mx : ℚ} (h : mn < mx) : normQ mx mn mx = 1 := by
  unfold normQ npClip
  rw [max_eq_left (le_of_lt h), min_self, div_self (by linarith)]

theorem normQ_nonneg_of_ne {b mn mx : ℚ} (h : mx ≠ mn) : 0 ≤ normQ b mn mx := by
  rcases lt_or_gt_of_ne h with hlt | hgt
  · -- degenerate ordering min_bpm > max_bpm: the clip collapses to max_bpm
    unfold normQ npClip
    have hmx : min (max b mn) mx = mx := by
      apply min_eq_right
      exact le_trans (le_of_lt hlt) (le_max_right b mn)
    rw [hmx, div_self (sub_ne_zero.mpr h)]
    norm_num
  · exact normQ_nonneg hgt

/-- Function `bpm_to_note_quantized(bpm, min_bpm, max_bpm, min_note=48, max_note=84)`
from `src/live_bridges/bridge_live_test.py` (also in `bridge_live_test2.py`
and, with module-level constants `min_note = 48`, `max_note = 84`, in
`bridge_live_test3.py`):
`bpm = np.clip(bpm, min_bpm, max_bpm); norm = (bpm - min_bpm) / (max_bpm - min_bpm);`
`return int(round(min_note + norm * (max_note - min_note)))`.
When `max_bpm == min_bpm` the division is `0.0/0.0` (NaN) and
`int(round(nan))` raises `ValueError`; this is modelled by `none`. -/
def bpm_to_note_quantized (bpm min_bpm max_bpm : ℚ) (min_note max_note : ℤ) : Option ℤ :=
  if max_bpm = min_bpm then none
  else some (pyRound ((min_note : ℚ) +
    normQ bpm min_bpm max_bpm * ((max_note : ℚ) - (min_note : ℚ))))

/-- Function `bpm_to_velocity(bpm, min_bpm, max_bpm, min_velocity=50, max_velocity=70)`
from `src/live_bridges/bridge_live_test.py` (same in the other live bridges):
`bpm = np.clip(...); norm = (bpm - min_bpm) / (max_bpm - min_bpm);`
`velocity = int(min_velocity + (max_velocity - min_velocity) * np.sqrt(norm))`.
`int(c₀ + c·√norm)` (with `c₀ = 50`, `c = 20 ≥ 0`, `norm ≥ 0` at every call
site, so `int` is `⌊·⌋`) is encoded exactly over `ℚ` as
`c₀ + ⌊√(c²·norm)⌋`; the identification with the real-valued source
expression is proved in `bpm_to_velocity_real_sqrt` below.
`max_bpm == min_bpm` raises as in `bpm_to_note_quantized`, modelled by `none`. -/
def bpm_to_velocity (bpm min_bpm max_bpm : ℚ) (min_velocity max_velocity : ℤ) : Option ℤ :=
  if max_bpm = min_bpm then none
  else some (min_velocity +
    ratSqrtFloor (((max_velocity - min_velocity : ℤ) : ℚ) ^ 2 * normQ bpm min_bpm max_bpm))

/-- Function `bpm_to_cc113(bpm)` from
`src/prerecorded_bridges/bridge_prerecorded_modulation.py`
(`min_cc113 = 0`, `max_cc113 = 127`; `min_bpm`, `max_bpm` are the module-level
range, taken here as parameters):
`bpm = np.clip(bpm, min_bpm, max_bpm); norm = (bpm - min_bpm) / (max_bpm - min_bpm);`
`return int(round(min_cc113 + norm * (max_cc113 - min_cc113)))`.
Degenerate range raises as above, modelled by `none`. -/
def bpm_to_cc113 (bpm min_bpm max_bpm : ℚ) : Option ℤ :=
  if max_bpm = min_bpm then none
  else some (pyRound ((0 : ℚ) + normQ bpm min_bpm max_bpm * ((127 : ℚ) - 0)))

/-- Reference definition, from the claim's words (not from the source): the
velocity the *linear* interpolation of the velocity range 50–70 would give,
with the same clamp, normalization and `int` conversion as the source's
velocity mapper but no square-root response curve. -/
def linear_velocity (bpm min_bpm max_bpm : ℚ) : Option ℤ :=
  if max_bpm = min_bpm then none
  else some (pyTrunc ((50 : ℚ) + ((70 : ℚ) - 50) * normQ bpm min_bpm max_bpm))

theorem ratSqrtFloor_eq_floor_real_sqrt (q : ℚ) (hq : 0 ≤ q) :
    ratSqrtFloor q = ⌊Real.sqrt (q : ℝ)⌋ := by
  unfold ratSqrtFloor
  symm
  rw [Int.floor_eq_iff]
  constructor
  · push_cast
    rw [Real.le_sqrt (by positivity) (by positivity)]
    have h1 : (Nat.sqrt ⌊q⌋.toNat * Nat.sqrt ⌊q⌋.toNat : ℕ) ≤ ⌊q⌋.toNat := Nat.sqrt_le _
    have ht : ((⌊q⌋.toNat : ℚ)) = ((⌊q⌋ : ℚ)) := by
      exact_mod_cast congrArg (fun z : ℤ => (z : ℚ)) (Int.toNat_of_nonneg (Int.floor_nonneg.mpr hq))
    have h2 : ((⌊q⌋.toNat : ℚ)) ≤ q := by
      rw [ht]; exact Int.floor_le q
    have h2' : ((⌊q⌋.toNat : ℝ)) ≤ (q : ℝ) := by exact_mod_cast h2
    have h1' : ((Nat.sqrt ⌊q⌋.toNat : ℝ)) ^ 2 ≤ ((⌊q⌋.toNat : ℝ)) := by
      rw [sq]
      exact_mod_cast h1
    linarith
  · push_cast
    rw [Real.sqrt_lt' (by positivity)]
    have h1 : ⌊q⌋.toNat < (Nat.sqrt ⌊q⌋.toNat + 1) ^ 2 := Nat.lt_succ_sqrt' _
    have h2 : (q : ℝ) < (⌊q⌋.toNat : ℝ) + 1 := by
      have : (q : ℚ) < (⌊q⌋ : ℚ) + 1 := Int.lt_floor_add_one q
      have h3 : ((⌊q⌋ : ℚ)) = ((⌊q⌋.toNat : ℚ)) := by
        exact_mod_cast (congrArg (fun z : ℤ => (z : ℚ))
          (Int.toNat_of_nonneg (Int.floor_nonneg.mpr hq))).symm
      rw [h3] at this
      exact_mod_cast this
    have h1' : ((⌊q⌋.toNat : ℝ)) + 1 ≤ ((Nat.sqrt ⌊q⌋.toNat : ℝ) + 1) ^ 2 := by
      have : (⌊q⌋.toNat + 1 : ℕ) ≤ ((Nat.sqrt ⌊q⌋.toNat + 1) ^ 2 : ℕ) := h1
      exact_mod_cast this
    linarith

/-- The computable velocity mapper equals the source's real-valued expression
`int(min_velocity + (max_velocity - min_velocity) * np.sqrt(norm))`
(with `int = ⌊·⌋`, exact for every call site, where the value is `≥ 50`). -/
theorem bpm_to_velocity_real_sqrt (bpm mn mx : ℚ) (minv maxv : ℤ)
    (h : mx ≠ mn) (hv : minv ≤ maxv) :
    bpm_to_velocity bpm mn mx minv maxv =
      some (minv + ⌊((maxv : ℝ) - (minv : ℝ)) * Real.sqrt (normQ bpm mn mx : ℝ)⌋) := by
  unfold bpm_to_velocity
  rw [if_neg h]
  have hn : (0 : ℚ) ≤ normQ bpm mn mx := normQ_nonneg_of_ne h
  have hc : (0 : ℝ) ≤ ((maxv : ℝ) - (minv : ℝ)) := by
    have : (minv : ℝ) ≤ (maxv : ℝ) := by exact_mod_cast hv
    linarith
  have key : ((maxv : ℝ) - (minv : ℝ)) * Real.sqrt (normQ bpm mn mx : ℝ) =
      Real.sqrt ((((maxv - minv : ℤ) : ℚ) ^ 2 * normQ bpm mn mx : ℚ) : ℝ) := by
    push_cast
    rw [Real.sqrt_mul (by positivity), Real.sqrt_sq hc]
  rw [key, ← ratSqrtFloor_eq_floor_real_sqrt _ (by positivity)]

theorem pyRound_int_bounds {x : ℚ} {lo hi : ℤ} (h1 : (lo : ℚ) ≤ x) (h2 : x ≤ (hi : ℚ)) :
    lo ≤ pyRound x ∧ pyRound x ≤ hi := by
  constructor
  · have hg := pyRound_ge x
    have h3 : (lo : ℚ) - 1 < (pyRound x : ℚ) := by linarith
    have h4 : lo - 1 < pyRound x := by exact_mod_cast h3
    omega
  · have hl := pyRound_le x
    have h3 : (pyRound x : ℚ) < (hi : ℚ) + 1 := by linarith
    have h4 : pyRound x < hi + 1 := by exact_mod_cast h3
    omega

theorem ratSqrtFloor_nonneg (q : ℚ) : 0 ≤ ratSqrtFloor q := by
  unfold ratSqrtFloor
  exact Int.natCast_nonneg _

theorem ratSqrtFloor_mono {p q : ℚ} (h : p ≤ q) : ratSqrtFloor p ≤ ratSqrtFloor q := by
  unfold ratSqrtFloor
  have h2 : ⌊p⌋.toNat ≤ ⌊q⌋.toNat := Int.toNat_le_toNat (Int.floor_mono h)
  exact_mod_cast Nat.sqrt_le_sqrt h2

theorem ratSqrtFloor_400_le {n : ℚ} (h1 : n ≤ 1) : ratSqrtFloor (400 * n) ≤ 20 := by
  unfold ratSqrtFloor
  have hq : (400 : ℚ) * n ≤ ((400 : ℤ) : ℚ) := by push_cast; nlinarith
  have h2 : ⌊(400 : ℚ) * n⌋ ≤ 400 := by
    calc ⌊(400 : ℚ) * n⌋ ≤ ⌊((400 : ℤ) : ℚ)⌋ := Int.floor_mono hq
    _ = 400 := Int.floor_intCast _
  have h3 : ⌊(400 : ℚ) * n⌋.toNat ≤ 400 := by omega
  have h4 : Nat.sqrt ⌊(400 : ℚ) * n⌋.toNat ≤ Nat.sqrt 400 := Nat.sqrt_le_sqrt h3
  have h5 : Nat.sqrt 400 = 20 := by norm_num
  omega

theorem floor_lin_le_ratSqrtFloor {n : ℚ} (h0 : 0 ≤ n) (h1 : n ≤ 1) :
    ⌊20 * n⌋ ≤ ratSqrtFloor (400 * n) := by
  have hk0 : 0 ≤ ⌊20 * n⌋ := Int.floor_nonneg.mpr (by positivity)
  have hkq : (⌊20 * n⌋ : ℚ) ≤ 20 * n := Int.floor_le _
  have hsq : ((⌊20 * n⌋.toNat * ⌊20 * n⌋.toNat : ℕ) : ℚ) ≤ 400 * n := by
    have hc : ((⌊20 * n⌋.toNat : ℚ)) = ((⌊20 * n⌋ : ℚ)) := by
      exact_mod_cast congrArg (fun z : ℤ => (z : ℚ)) (Int.toNat_of_nonneg hk0)
    have hk0q : (0 : ℚ) ≤ (⌊20 * n⌋ : ℚ) := by exact_mod_cast hk0
    have e1 : (⌊20 * n⌋ : ℚ) * (⌊20 * n⌋ : ℚ) ≤ (20 * n) * (20 * n) :=
      mul_le_mul hkq hkq hk0q (by positivity)
    have e2 : (20 * n : ℚ) * (20 * n) ≤ 400 * n := by nlinarith [h0, h1]
    push_cast [hc]
    linarith
  have h2 : ((⌊20 * n⌋.toNat * ⌊20 * n⌋.toNat : ℕ) : ℤ) ≤ ⌊400 * n⌋ := Int.le_floor.mpr (by
    push_cast at hsq ⊢
    exact hsq)
  have h3 : ⌊20 * n⌋.toNat * ⌊20 * n⌋.toNat ≤ ⌊400 * n⌋.toNat := by omega
  have h4 : ⌊20 * n⌋.toNat ≤ Nat.sqrt ⌊400 * n⌋.toNat := Nat.le_sqrt.mpr h3
  unfold ratSqrtFloor
  omega

/-- C1: the claimed degenerate-range fallback does not exist in the code.
For every bpm input, when `max_bpm == min_bpm` each mapper function hits the
division `0.0/0.0` followed by `int(round(nan))` / `int(nan)` and raises
(modelled by `none`) instead of returning the midpoint of its output range. -/
theorem mapper_degenerate_range_no_fallback (bpm mn : ℚ) :
    bpm_to_note_quantized bpm mn mn 48 84 = none ∧
    bpm_to_velocity bpm mn mn 50 70 = none ∧
    bpm_to_cc113 bpm mn mn = none := by
  refine ⟨?_, ?_, ?_⟩ <;>
    simp [bpm_to_note_quantized, bpm_to_velocity, bpm_to_cc113]

/-- C2: for every range with `min_bpm < max_bpm` and all bpm inputs (also
out-of-range ones, which are clamped), `bpm_to_note_quantized` with the
default note range 48–84 is defined, returns an integer in [48, 84], is
monotonically non-decreasing in bpm, and maps `min_bpm` to 48 and `max_bpm`
to 84. -/
theorem note_mapping_correct (mn mx b1 b2 : ℚ) (h : mn < mx) (hb : b1 ≤ b2) :
    ∃ n1 n2 : ℤ,
      bpm_to_note_quantized b1 mn mx 48 84 = some n1 ∧
      bpm_to_note_quantized b2 mn mx 48 84 = some n2 ∧
      48 ≤ n1 ∧ n1 ≤ 84 ∧ 48 ≤ n2 ∧ n2 ≤ 84 ∧ n1 ≤ n2 ∧
      bpm_to_note_quantized mn mn mx 48 84 = some 48 ∧
      bpm_to_note_quantized mx mn mx 48 84 = some 84 := by
  have hne : mx ≠ mn := ne_of_gt h
  have key : ∀ b : ℚ, bpm_to_note_quantized b mn mx 48 84 =
      some (pyRound (((48 : ℤ) : ℚ) + normQ b mn mx * (((84 : ℤ) : ℚ) - ((48 : ℤ) : ℚ)))) := by
    intro b
    unfold bpm_to_note_quantized
    rw [if_neg hne]
  have hbnd : ∀ b : ℚ,
      (48 : ℤ) ≤ pyRound (((48 : ℤ) : ℚ) + normQ b mn mx * (((84 : ℤ) : ℚ) - ((48 : ℤ) : ℚ))) ∧
      pyRound (((48 : ℤ) : ℚ) + normQ b mn mx * (((84 : ℤ) : ℚ) - ((48 : ℤ) : ℚ))) ≤ 84 := by
    intro b
    have h0 := @normQ_nonneg b mn mx h
    have h1 := @normQ_le_one b mn mx h
    apply pyRound_int_bounds
    · push_cast
      nlinarith
    · push_cast
      nlinarith
  have hmono : pyRound (((48 : ℤ) : ℚ) + normQ b1 mn mx * (((84 : ℤ) : ℚ) - ((48 : ℤ) : ℚ))) ≤
      pyRound (((48 : ℤ) : ℚ) + normQ b2 mn mx * (((84 : ℤ) : ℚ) - ((48 : ℤ) : ℚ))) := by
    apply pyRound_mono
    have hm := normQ_mono h hb
    push_cast
    nlinarith
  refine ⟨_, _, key b1, key b2, (hbnd b1).1, (hbnd b1).2, (hbnd b2).1, (hbnd b2).2, hmono, ?_, ?_⟩
  · rw [key mn, normQ_at_min h]
    have e : ((48 : ℤ) : ℚ) + 0 * (((84 : ℤ) : ℚ) - ((48 : ℤ) : ℚ)) = ((48 : ℤ) : ℚ) := by ring
    rw [e, pyRound_intCast]
  · rw [key mx, normQ_at_max h]
    have e : ((48 : ℤ) : ℚ) + 1 * (((84 : ℤ) : ℚ) - ((48 : ℤ) : ℚ)) = ((84 : ℤ) : ℚ) := by
      push_cast
      ring
    rw [e, pyRound_intCast]

/-- Witness for `note_mapping_correct` at the concrete range 40–60 BPM and
inputs 45 ≤ 50. -/
theorem note_mapping_correct_witness :
    ∃ n1 n2 : ℤ,
      bpm_to_note_quantized 45 40 60 48 84 = some n1 ∧
      bpm_to_note_quantized 50 40 60 48 84 = some n2 ∧
      48 ≤ n1 ∧ n1 ≤ 84 ∧ 48 ≤ n2 ∧ n2 ≤ 84 ∧ n1 ≤ n2 ∧
      bpm_to_note_quantized 40 40 60 48 84 = some 48 ∧
      bpm_to_note_quantized 60 40 60 48 84 = some 84 :=
  note_mapping_correct 40 60 45 50 (by norm_num) (by norm_num)

/-- C3: for every range with `min_bpm < max_bpm`, the velocity mapper with
the default velocity range 50–70 is defined, returns an integer in [50, 70],
is monotonically non-decreasing in bpm, and — its square-root response
curve — for bpm strictly inside the range it is at least the value the
linear interpolation of the velocity range (`linear_velocity`) gives. -/
theorem velocity_mapping_correct (mn mx b1 b2 b3 : ℚ) (h : mn < mx) (hb : b1 ≤ b2)
    (h3a : mn < b3) (h3b : b3 < mx) :
    ∃ v1 v2 v3 l3 : ℤ,
      bpm_to_velocity b1 mn mx 50 70 = some v1 ∧
      bpm_to_velocity b2 mn mx 50 70 = some v2 ∧
      bpm_to_velocity b3 mn mx 50 70 = some v3 ∧
      linear_velocity b3 mn mx = some l3 ∧
      50 ≤ v1 ∧ v1 ≤ 70 ∧ 50 ≤ v2 ∧ v2 ≤ 70 ∧ v1 ≤ v2 ∧ l3 ≤ v3 := by
  have hne : mx ≠ mn := ne_of_gt h
  have key : ∀ b : ℚ, bpm_to_velocity b mn mx 50 70 =
      some (50 + ratSqrtFloor (400 * normQ b mn mx)) := by
    intro b
    unfold bpm_to_velocity
    rw [if_neg hne]
    have e : (((70 - 50 : ℤ) : ℚ)) ^ 2 * normQ b mn mx = 400 * normQ b mn mx := by
      push_cast
      ring
    rw [e]
  have hbnd : ∀ b : ℚ, (50 : ℤ) ≤ 50 + ratSqrtFloor (400 * normQ b mn mx) ∧
      50 + ratSqrtFloor (400 * normQ b mn mx) ≤ 70 := by
    intro b
    have hlo := ratSqrtFloor_nonneg (400 * normQ b mn mx)
    have hhi := ratSqrtFloor_400_le (@normQ_le_one b mn mx h)
    omega
  have hmono : (50 : ℤ) + ratSqrtFloor (400 * normQ b1 mn mx) ≤
      50 + ratSqrtFloor (400 * normQ b2 mn mx) := by
    have hm := normQ_mono h hb
    have := @ratSqrtFloor_mono (400 * normQ b1 mn mx) (400 * normQ b2 mn mx)
      (by linarith)
    omega
  have keyl : linear_velocity b3 mn mx = some ⌊(50 : ℚ) + 20 * normQ b3 mn mx⌋ := by
    unfold linear_velocity
    rw [if_neg hne]
    have h0 := @normQ_nonneg b3 mn mx h
    rw [pyTrunc_of_nonneg (by nlinarith)]
    have e : (50 : ℚ) + ((70 : ℚ) - 50) * normQ b3 mn mx = (50 : ℚ) + 20 * normQ b3 mn mx := by
      ring
    rw [e]
  have hlin : ⌊(50 : ℚ) + 20 * normQ b3 mn mx⌋ ≤ 50 + ratSqrtFloor (400 * normQ b3 mn mx) := by
    have h0 := @normQ_nonneg b3 mn mx h
    have h1 := @normQ_le_one b3 mn mx h
    have e : (50 : ℚ) + 20 * normQ b3 mn mx = ((50 : ℤ) : ℚ) + 20 * normQ b3 mn mx := by
      norm_num
    rw [e, Int.floor_int_add]
    have := floor_lin_le_ratSqrtFloor h0 h1
    omega
  exact ⟨_, _, _, _, key b1, key b2, key b3, keyl,
    (hbnd b1).1, (hbnd b1).2, (hbnd b2).1, (hbnd b2).2, hmono, hlin⟩

/-- Witness for `velocity_mapping_correct` at the concrete range 40–60 BPM,
monotone pair 45 ≤ 50 and interior point 50. -/
theorem velocity_mapping_correct_witness :
    ∃ v1 v2 v3 l3 : ℤ,
      bpm_to_velocity 45 40 60 50 70 = some v1 ∧
      bpm_to_velocity 50 40 60 50 70 = some v2 ∧
      bpm_to_velocity 50 40 60 50 70 = some v3 ∧
      linear_velocity 50 40 60 = some l3 ∧
      50 ≤ v1 ∧ v1 ≤ 70 ∧ 50 ≤ v2 ∧ v2 ≤ 70 ∧ v1 ≤ v2 ∧ l3 ≤ v3 :=
  velocity_mapping_correct 40 60 45 50 50 (by norm_num) (by norm_num) (by norm_num) (by norm_num)

/-- The discrete glide step applied to a distance `d = target - current`, from
the main loop of `src/live_bridges/bridge_live_test.py` (lines 142–146; the
identical lines appear in `bridge_live_test2.py` and `bridge_live_test3.py`),
with `note_glide_speed = 0.2`:
`glide_step = int(round(note_distance * note_glide_speed));`
`if glide_step == 0 and note_distance != 0: glide_step = np.sign(note_distance)`. -/
def stepOfD (d : ℤ) : ℤ :=
  if pyRound ((d : ℚ) * (2/10)) = 0 ∧ d ≠ 0 then Int.sign d
  else pyRound ((d : ℚ) * (2/10))

/-- Glide update `note_to_play = current_note + glide_step` for the discrete glide. -/
def glide_next (cur target : ℤ) : ℤ := cur + stepOfD (target - cur)

/-- One iteration of the continuous CC glide loop of
`src/prerecorded_bridges/bridge_prerecorded_modulation.py` (lines 92–104):
`step = max(1, int(abs(target_cc - cc_value) * glide_speed));`
`cc_value = min(target_cc, cc_value + step)` if `cc_value < target_cc`
else `cc_value = max(target_cc, cc_value - step)`. -/
def ccGlideStep (gs : ℚ) (target c : ℤ) : ℤ :=
  if c < target then min target (c + max 1 (pyTrunc ((|target - c| : ℤ) * gs)))
  else max target (c - max 1 (pyTrunc ((|target - c| : ℤ) * gs)))

theorem stepOfD_pos {d : ℤ} (hd : 1 ≤ d) : 1 ≤ stepOfD d ∧ stepOfD d ≤ d := by
  have hub := pyRound_le ((d : ℚ) * (2/10))
  have hlb := pyRound_ge ((d : ℚ) * (2/10))
  have hdq : (1 : ℚ) ≤ (d : ℚ) := by exact_mod_cast hd
  have hs_le : (pyRound ((d : ℚ) * (2/10)) : ℚ) ≤ (d : ℚ) := by linarith
  have hs_le' : pyRound ((d : ℚ) * (2/10)) ≤ d := by exact_mod_cast hs_le
  have hs_gt : (-1 : ℚ) < (pyRound ((d : ℚ) * (2/10)) : ℚ) := by linarith
  have hs_gt' : (-1 : ℤ) < pyRound ((d : ℚ) * (2/10)) := by exact_mod_cast hs_gt
  unfold stepOfD
  split_ifs with hcond
  · rw [Int.sign_eq_one_iff_pos.mpr (by omega)]
    omega
  · have hne : pyRound ((d : ℚ) * (2/10)) ≠ 0 := by
      intro h0
      exact hcond ⟨h0, by omega⟩
    omega

theorem stepOfD_neg {d : ℤ} (hd : d ≤ -1) : d ≤ stepOfD d ∧ stepOfD d ≤ -1 := by
  have hub := pyRound_le ((d : ℚ) * (2/10))
  have hlb := pyRound_ge ((d : ℚ) * (2/10))
  have hdq : (d : ℚ) ≤ (-1 : ℚ) := by exact_mod_cast hd
  have hs_ge : (d : ℚ) ≤ (pyRound ((d : ℚ) * (2/10)) : ℚ) := by linarith
  have hs_ge' : d ≤ pyRound ((d : ℚ) * (2/10)) := by exact_mod_cast hs_ge
  have hs_lt : (pyRound ((d : ℚ) * (2/10)) : ℚ) < (1 : ℚ) := by linarith
  have hs_lt' : pyRound ((d : ℚ) * (2/10)) < (1 : ℤ) := by exact_mod_cast hs_lt
  unfold stepOfD
  split_ifs with hcond
  · rw [Int.sign_eq_neg_one_iff_neg.mpr (by omega)]
    omega
  · have hne : pyRound ((d : ℚ) * (2/10)) ≠ 0 := by
      intro h0
      exact hcond ⟨h0, by omega⟩
    omega

theorem pyRound_zero : pyRound (0 : ℚ) = 0 := by
  have h := pyRound_intCast 0
  simpa using h

theorem glide_next_self (t : ℤ) : glide_next t t = t := by
  unfold glide_next stepOfD
  rw [sub_self]
  norm_num [pyRound_zero]

theorem glide_next_closer {c t : ℤ} (h : c ≠ t) :
    (t - glide_next c t).natAbs < (t - c).natAbs ∧
    min c t ≤ glide_next c t ∧ glide_next c t ≤ max c t ∧
    1 ≤ (glide_next c t - c).natAbs := by
  unfold glide_next
  rcases lt_or_gt_of_ne h with hlt | hgt
  · -- c < t : d = t - c ≥ 1
    have hd : 1 ≤ t - c := by omega
    have := stepOfD_pos hd
    omega
  · -- c > t : d = t - c ≤ -1
    have hd : t - c ≤ -1 := by omega
    have := stepOfD_neg hd
    omega

theorem glide_iter_aux (t : ℤ) : ∀ (n : ℕ) (c : ℤ), (t - c).natAbs ≤ n →
    (fun x => glide_next x t)^[n] c = t := by
  intro n
  induction n with
  | zero =>
    intro c h
    have hc : c = t := by omega
    simp [hc]
  | succ k ih =>
    intro c h
    rw [Function.iterate_succ_apply]
    by_cases hc : c = t
    · subst hc
      rw [glide_next_self]
      exact ih c (by omega)
    · have hcl := (glide_next_closer hc).1
      exact ih (glide_next c t) (by omega)

/-- C4: with `glide_speed = 0.2`, from any `current != target` the repeated
discrete glide step reaches the target within `|target - current| + 1`
steps (the target is a fixed point, so iterating exactly that many times
lands on it). -/
theorem glide_converges (c t : ℤ) (h : c ≠ t) :
    (fun x => glide_next x t)^[(t - c).natAbs + 1] c = t :=
  glide_iter_aux t ((t - c).natAbs + 1) c (by omega)

/-- Witness for `glide_converges`: from note 58 toward target 60 the glide
reaches 60 within |60 - 58| + 1 = 3 steps. -/
theorem glide_converges_witness :
    (58 : ℤ) ≠ 60 ∧ (fun x => glide_next x (60 : ℤ))^[((60 : ℤ) - 58).natAbs + 1] 58 = 60 :=
  ⟨by decide, glide_converges 58 60 (by decide)⟩

/-- C9: a single discrete glide step from `current != target` stays inside
the closed interval between current and target, gets strictly closer to the
target, and moves by at least one. -/
theorem glide_step_no_overshoot (c t : ℤ) (h : c ≠ t) :
    min c t ≤ glide_next c t ∧ glide_next c t ≤ max c t ∧
    (t - glide_next c t).natAbs < (t - c).natAbs ∧
    1 ≤ (glide_next c t - c).natAbs := by
  have hcl := glide_next_closer h
  exact ⟨hcl.2.1, hcl.2.2.1, hcl.1, hcl.2.2.2⟩

/-- Witness for `glide_step_no_overshoot` at current 50, target 60. -/
theorem glide_step_no_overshoot_witness :
    (50 : ℤ) ≠ 60 ∧
    (min 50 60 ≤ glide_next 50 60 ∧ glide_next 50 60 ≤ max 50 60 ∧
      ((60 : ℤ) - glide_next 50 60).natAbs < ((60 : ℤ) - 50).natAbs ∧
      1 ≤ (glide_next 50 60 - 50).natAbs) :=
  ⟨by decide, glide_step_no_overshoot 50 60 (by decide)⟩

theorem ccGlideStep_self (gs : ℚ) (t : ℤ) : ccGlideStep gs t t = t := by
  unfold ccGlideStep
  rw [if_neg (lt_irrefl t)]
  have h1 : (1 : ℤ) ≤ max 1 (pyTrunc (((|t - t| : ℤ) : ℚ) * gs)) := le_max_left _ _
  omega

theorem ccGlideStep_closer {gs : ℚ} {c t : ℤ} (h : c ≠ t) :
    (t - ccGlideStep gs t c).natAbs < (t - c).natAbs := by
  unfold ccGlideStep
  rcases lt_or_gt_of_ne h with hlt | hgt
  · rw [if_pos hlt]
    have h1 : (1 : ℤ) ≤ max 1 (pyTrunc (((|t - c| : ℤ) : ℚ) * gs)) := le_max_left _ _
    omega
  · rw [if_neg (by omega : ¬ c < t)]
    have h1 : (1 : ℤ) ≤ max 1 (pyTrunc (((|t - c| : ℤ) : ℚ) * gs)) := le_max_left _ _
    omega

theorem cc_glide_iter_aux (gs : ℚ) (t : ℤ) : ∀ (n : ℕ) (c : ℤ), (t - c).natAbs ≤ n →
    (fun x => ccGlideStep gs t x)^[n] c = t := by
  intro n
  induction n with
  | zero =>
    intro c h
    have hc : c = t := by omega
    simp [hc]
  | succ k ih =>
    intro c h
    rw [Function.iterate_succ_apply]
    by_cases hc : c = t
    · subst hc
      rw [ccGlideStep_self]
      exact ih c (by omega)
    · have hcl := @ccGlideStep_closer gs c t hc
      exact ih (ccGlideStep gs t c) (by omega)

/-- C5: for every initial `cc_value` and `target_cc` in [0, 127] and
`glide_speed` in (0, 1], the continuous CC glide loop terminates, ending
with `cc_value == target_cc` (after at most `|target - current|` iterations,
the target being a fixed point). -/
theorem cc_glide_terminates (gs : ℚ) (c t : ℤ) (h1 : 0 < gs) (h2 : gs ≤ 1)
    (hc1 : 0 ≤ c) (hc2 : c ≤ 127) (ht1 : 0 ≤ t) (ht2 : t ≤ 127) :
    (fun x => ccGlideStep gs t x)^[(t - c).natAbs] c = t :=
  cc_glide_iter_aux gs t ((t - c).natAbs) c (le_refl _)

/-- Witness for `cc_glide_terminates`: `glide_speed = 0.1` (the source's
value), from CC 125 toward 127. -/
theorem cc_glide_terminates_witness :
    (0 : ℚ) < 1/10 ∧ (1/10 : ℚ) ≤ 1 ∧ (0 : ℤ) ≤ 125 ∧ (125 : ℤ) ≤ 127 ∧
    (0 : ℤ) ≤ 127 ∧ (127 : ℤ) ≤ 127 ∧
    (fun x => ccGlideStep (1/10) 127 x)^[((127 : ℤ) - 125).natAbs] 125 = 127 :=
  ⟨by norm_num, by norm_num, by norm_num, by norm_num, by norm_num, by norm_num,
    cc_glide_terminates (1/10) 125 127 (by norm_num) (by norm_num) (by norm_num)
      (by norm_num) (by norm_num) (by norm_num)⟩

/-- Median of three values (`np.median` of a window of three). -/
def median3 (a b c : ℚ) : ℚ := max (min a b) (min (max a b) c)

/-- NumPy `np.diff`: consecutive differences. -/
def diffs : List ℚ → List ℚ
  | a :: b :: rest => (b - a) :: diffs (b :: rest)
  | _ => []

/-- Window-3 medians of consecutive triples of an already-padded list. -/
def win3 : List ℚ → List ℚ
  | a :: b :: c :: rest => median3 a b c :: win3 (b :: c :: rest)
  | _ => []

/-- SciPy `scipy.signal.medfilt(data, kernel_size=3)` (used on the RR intervals in
`src/live_bridges/bridge_live_test.py`): window-3 moving median with
zero-padded edges. -/
def medfilt3 (l : List ℚ) : List ℚ := win3 (0 :: l ++ [0])

/-- Function `moving_median(data, window_size=3)` from
`src/prerecorded_bridges/bridge_prerecorded_modulation.py` (lines 56–58) and
the identical `moving_median(data, window=3)` in
`src/live_bridges/bridge_live_test3.py` (lines 79–81): window-3 moving
median with edge-replicating padding (`np.pad(data, (1, 1), mode='edge')`).
Every call site uses the default window 3.  `np.pad(..., mode='edge')`
raises on an empty array, modelled by `none`. -/
def moving_median : List ℚ → Option (List ℚ)
  | [] => none
  | x :: xs => some (win3 (x :: (x :: xs) ++ [(x :: xs).getLastD 0]))

/-- NumPy `np.min` of an array (`0` on the empty array, which cannot occur at the
guarded call sites). -/
def listMin : List ℚ → ℚ
  | [] => 0
  | x :: xs => xs.foldl min x

/-- NumPy `np.max` of an array (`0` on the empty array, as for `listMin`). -/
def listMax : List ℚ → ℚ
  | [] => 0
  | x :: xs => xs.foldl max x

/-- NumPy `np.median(l[-3:])` for a list of length ≥ 3 (`0` otherwise; the call
site is guarded by `len >= 3`). -/
def last3Median (l : List ℚ) : ℚ :=
  match l.drop (l.length - 3) with
  | [a, b, c] => median3 a b c
  | _ => 0

/-- Estimate list `bpm_values = 60 / medfilt(np.diff(peak_times), kernel_size=3)` from the
detection pass of `src/live_bridges/bridge_live_test.py` (lines 124–126).
NumPy evaluates `60/0.0` as `+inf` where Lean's `ℚ` yields `0`; a zero RR
value arises only from the zero padding when exactly two peaks are detected,
and then both `+inf` and `0` fall outside the 30–200 sanity band, so the
pass is skipped under either reading; the theorems below never depend on
this case. -/
def passBpms (peaks : List ℚ) : List ℚ :=
  (medfilt3 (diffs peaks)).map (fun r => 60 / r)

/-- Estimate `bpm_value = np.median(bpm_values[-3:]) if len(bpm_values) >= 3 else
bpm_values[-1]` (line 127). -/
def passBpm (peaks : List ℚ) : ℚ :=
  if 3 ≤ (passBpms peaks).length then last3Median (passBpms peaks)
  else (passBpms peaks).getLastD 0

/-- Range `min_bpm = max(40, np.min(bpm_values)); max_bpm = min(180, np.max(bpm_values))`
(lines 132–133). -/
def passRange (peaks : List ℚ) : ℚ × ℚ :=
  (max 40 (listMin (passBpms peaks)), min 180 (listMax (passBpms peaks)))

/-- The persistent mapping state of the live bridges:
`current_note` and `last_bpm` (both `None` at process start). -/
structure MState where
  current_note : Option ℤ
  last_bpm : Option ℚ
deriving DecidableEq

/-- A MIDI event sent by the live bridges (`note_off` carries velocity 0 in
the source; only the note number is modelled). -/
inductive MEvent where
  | noteOn (note velocity : ℤ)
  | noteOff (note : ℤ)
deriving DecidableEq

/-- One detection pass of the main loop of
`src/live_bridges/bridge_live_test.py` (lines 123–158; the same lines with
the same constants appear in `bridge_live_test2.py`), as a function of the
detected peak times (seconds) and the persistent mapping state:
`if len(peak_times) > 1:` guard, sanity band `bpm_value < 30 or bpm_value > 200`
(`continue`), update gate `last_bpm is None or abs(bpm_value - last_bpm) >= 1.0`,
first-note initialization, discrete glide, `note_on`/`note_off` emission and
state update.  `none` models a pass that raises (the mapper functions on a
degenerate range); `time.sleep` and printing are external effects, not
modelled. -/
def processPass (peaks : List ℚ) (st : MState) : Option (MState × List MEvent) :=
  if peaks.length ≤ 1 then some (st, [])
  else if passBpm peaks < 30 ∨ 200 < passBpm peaks then some (st, [])
  else if st.last_bpm = none ∨ 1 ≤ |passBpm peaks - st.last_bpm.getD 0| then
    match bpm_to_note_quantized (passBpm peaks) (passRange peaks).1 (passRange peaks).2 48 84,
        bpm_to_velocity (passBpm peaks) (passRange peaks).1 (passRange peaks).2 50 70 with
    | some target, some vel =>
      some ({ current_note := some (glide_next (st.current_note.getD target) target),
              last_bpm := some (passBpm peaks) },
        [MEvent.noteOn (glide_next (st.current_note.getD target) target) vel,
         MEvent.noteOff (glide_next (st.current_note.getD target) target)])
    | _, _ => none
  else some (st, [])

/-- One detection pass of the main loop of
`src/live_bridges/bridge_live_test3.py` (lines 105–141), as a function of
the peak timestamps and the mapping state: `if len(r_peaks) >= 2:` guard,
`smoothed_bpm = 60 / moving_median(rr_intervals)`,
`min_bpm, max_bpm_val = np.min(smoothed_bpm), np.max(smoothed_bpm)`,
`bpm_value = smoothed_bpm[-1]`, update gate with `bpm_change_threshold = 3`,
first-note initialization, the same discrete glide, emission and state
update.  This file applies no sanity band.  `none` models a raising pass. -/
def processPass3 (peak_times : List ℚ) (st : MState) : Option (MState × List MEvent) :=
  if peak_times.length < 2 then some (st, [])
  else
    match moving_median (diffs peak_times) with
    | none => none
    | some srr =>
      let sbpm := srr.map (fun r => 60 / r)
      let bpm := sbpm.getLastD 0
      if st.last_bpm = none ∨ 3 ≤ |bpm - st.last_bpm.getD 0| then
        match bpm_to_note_quantized bpm (listMin sbpm) (listMax sbpm) 48 84,
            bpm_to_velocity bpm (listMin sbpm) (listMax sbpm) 50 70 with
        | some target, some vel =>
          some ({ current_note := some (glide_next (st.current_note.getD target) target),
                  last_bpm := some bpm },
            [MEvent.noteOn (glide_next (st.current_note.getD target) target) vel,
             MEvent.noteOff (glide_next (st.current_note.getD target) target)])
        | _, _ => none
      else some (st, [])

/-- C6: a detection pass in which fewer than 2 peaks were found emits no
event and leaves the mapping state exactly unchanged, in both live-bridge
main loops — a silent, defined skip (`some (st, [])`), never an error. -/
theorem no_signal_pass_skips (peaks : List ℚ) (st : MState) (h : peaks.length < 2) :
    processPass peaks st = some (st, []) ∧ processPass3 peaks st = some (st, []) := by
  constructor
  · unfold processPass
    rw [if_pos (by omega)]
  · unfold processPass3
    rw [if_pos h]

/-- Witness for `no_signal_pass_skips`: a pass with the single peak time 5 s
leaves the state `(some 60, some 80)` untouched and emits nothing. -/
theorem no_signal_pass_skips_witness :
    ([5] : List ℚ).length < 2 ∧
    (processPass [5] ⟨some 60, some 80⟩ = some (⟨some 60, some 80⟩, []) ∧
      processPass3 [5] ⟨some 60, some 80⟩ = some (⟨some 60, some 80⟩, [])) :=
  ⟨by norm_num, no_signal_pass_skips [5] ⟨some 60, some 80⟩ (by norm_num)⟩

/-- C7 (amended): in `bridge_live_test.py` (and `bridge_live_test2.py`), a
detection pass whose current BPM estimate falls outside the 30–200 sanity
band discards the estimate: no event is emitted and the prior mapping state
is retained unchanged. -/
theorem sanity_band_discards (peaks : List ℚ) (st : MState) (h2 : 2 ≤ peaks.length)
    (hout : passBpm peaks < 30 ∨ 200 < passBpm peaks) :
    processPass peaks st = some (st, []) := by
  unfold processPass
  rw [if_neg (by omega), if_pos hout]

/-- Witness for `sanity_band_discards`: peaks at 0 s, 3 s, 6 s give the
estimate 20 BPM < 30, and the pass keeps the state `(some 60, some 80)`. -/
theorem sanity_band_discards_witness :
    2 ≤ ([0, 3, 6] : List ℚ).length ∧
    (passBpm [0, 3, 6] < 30 ∨ 200 < passBpm [0, 3, 6]) ∧
    processPass [0, 3, 6] ⟨some 60, some 80⟩ = some (⟨some 60, some 80⟩, []) :=
  ⟨by norm_num,
   Or.inl (by norm_num [passBpm, passBpms, medfilt3, diffs, win3, median3, last3Median,
     min_def, max_def]),
   sanity_band_discards [0, 3, 6] ⟨some 60, some 80⟩ (by norm_num)
     (Or.inl (by norm_num [passBpm, passBpms, medfilt3, diffs, win3, median3, last3Median,
       min_def, max_def]))⟩

/-- C7 counterexample: `bridge_live_test3.py` applies no sanity band.  On
the pass with peak timestamps 0 s, 0.1 s, 0.3 s the current BPM estimate is
300 — outside the 30–200 band — yet starting from the initial state the
pass emits a note-on/note-off pair and updates the mapping state
(`last_bpm := 300`) instead of discarding the estimate. -/
theorem sanity_band_not_applied_in_test3 :
    (200 : ℚ) < 300 ∧
    processPass3 [0, 1/10, 3/10] ⟨none, none⟩ =
      some (⟨some 48, some 300⟩, [MEvent.noteOn 48 50, MEvent.noteOff 48]) := by
  constructor
  · norm_num
  · norm_num [processPass3, moving_median, diffs, win3, median3, listMin, listMax,
      min_def, max_def, bpm_to_note_quantized, bpm_to_velocity, normQ, npClip,
      ratSqrtFloor, pyRound, glide_next, stepOfD]

/-- C10: on the first detection pass with a valid BPM estimate (initial
state: `last_bpm` and `current_note` both `None`), the update gate opens
regardless of the change threshold, and — because `current_note` is
initialized to the target note — the emitted note equals the mapper's
target note exactly, with no glide offset. -/
theorem first_estimate_emits_target (peaks : List ℚ) (t v : ℤ)
    (h2 : 2 ≤ peaks.length)
    (hband : ¬(passBpm peaks < 30 ∨ 200 < passBpm peaks))
    (hnote : bpm_to_note_quantized (passBpm peaks) (passRange peaks).1 (passRange peaks).2 48 84
      = some t)
    (hvel : bpm_to_velocity (passBpm peaks) (passRange peaks).1 (passRange peaks).2 50 70
      = some v) :
    processPass peaks { current_note := none, last_bpm := none } =
      some ({ current_note := some t, last_bpm := some (passBpm peaks) },
        [MEvent.noteOn t v, MEvent.noteOff t]) := by
  unfold processPass
  rw [if_neg (by omega), if_neg hband, if_pos (Or.inl rfl), hnote, hvel]
  simp [glide_next_self]

/-- Witness for `first_estimate_emits_target`: peaks at 0 s, 1 s, 2.5 s, 4 s
give estimate 40 BPM, range (40, 60), target note 48, velocity 50, and the
first pass emits exactly note 48. -/
theorem first_estimate_emits_target_witness :
    2 ≤ ([0, 1, 5/2, 4] : List ℚ).length ∧
    ¬(passBpm [0, 1, 5/2, 4] < 30 ∨ 200 < passBpm [0, 1, 5/2, 4]) ∧
    bpm_to_note_quantized (passBpm [0, 1, 5/2, 4]) (passRange [0, 1, 5/2, 4]).1
      (passRange [0, 1, 5/2, 4]).2 48 84 = some 48 ∧
    bpm_to_velocity (passBpm [0, 1, 5/2, 4]) (passRange [0, 1, 5/2, 4]).1
      (passRange [0, 1, 5/2, 4]).2 50 70 = some 50 ∧
    processPass [0, 1, 5/2, 4] { current_note := none, last_bpm := none } =
      some ({ current_note := some 48, last_bpm := some (passBpm [0, 1, 5/2, 4]) },
        [MEvent.noteOn 48 50, MEvent.noteOff 48]) :=
  ⟨by norm_num,
   by norm_num [passBpm, passBpms, medfilt3, diffs, win3, median3, last3Median,
     min_def, max_def],
   by norm_num [passBpm, passBpms, passRange, medfilt3, diffs, win3, median3, last3Median,
     listMin, listMax, min_def, max_def, bpm_to_note_quantized, normQ, npClip, pyRound],
   by norm_num [passBpm, passBpms, passRange, medfilt3, diffs, win3, median3, last3Median,
     listMin, listMax, min_def, max_def, bpm_to_velocity, normQ, npClip, ratSqrtFloor],
   first_estimate_emits_target [0, 1, 5/2, 4] 48 50 (by norm_num)
     (by norm_num [passBpm, passBpms, medfilt3, diffs, win3, median3, last3Median,
       min_def, max_def])
     (by norm_num [passBpm, passBpms, passRange, medfilt3, diffs, win3, median3, last3Median,
       listMin, listMax, min_def, max_def, bpm_to_note_quantized, normQ, npClip, pyRound])
     (by norm_num [passBpm, passBpms, passRange, medfilt3, diffs, win3, median3, last3Median,
       listMin, listMax, min_def, max_def, bpm_to_velocity, normQ, npClip, ratSqrtFloor])⟩

theorem median3_self (c : ℚ) : median3 c c c = c := by
  simp [median3]

theorem win3_length : ∀ l : List ℚ, (win3 l).length = l.length - 2
  | [] => rfl
  | [_] => rfl
  | [_, _] => rfl
  | a :: b :: d :: rest => by
    have ih := win3_length (b :: d :: rest)
    simp only [win3, List.length_cons] at ih ⊢
    omega

theorem win3_const : ∀ (p : List ℚ) (c : ℚ), (∀ y ∈ p, y = c) →
    win3 p = List.replicate (p.length - 2) c
  | [], _, _ => rfl
  | [_], _, _ => rfl
  | [_, _], _, _ => rfl
  | a :: b :: d :: rest, c, h => by
    have ha : a = c := h a (by simp)
    have hb : b = c := h b (by simp)
    have hd : d = c := h d (by simp)
    have ih := win3_const (b :: d :: rest) c (fun y hy => h y (List.mem_cons_of_mem a hy))
    simp only [win3]
    rw [ih, ha, hb, hd, median3_self]
    simp only [List.length_cons]
    have e1 : rest.length + 1 + 1 - 2 = rest.length := by omega
    have e2 : rest.length + 1 + 1 + 1 - 2 = rest.length + 1 := by omega
    rw [e1, e2, List.replicate_succ]

theorem getLastD_cons_eq_of_const : ∀ (x : ℚ) (xs : List ℚ) (c : ℚ),
    (∀ y ∈ x :: xs, y = c) → (x :: xs).getLastD 0 = c
  | x, [], c, h => by simpa using h x (by simp)
  | x, y :: ys, c, h => by
    have ih := getLastD_cons_eq_of_const y ys c (fun z hz => h z (List.mem_cons_of_mem x hz))
    simpa [List.getLastD] using ih

/-- C8: the edge-padded window-3 moving median of every non-empty list is
defined, its output has the same length as its input, and on a constant
list it returns the same constant list unchanged. -/
theorem moving_median_length_and_const (l : List ℚ) (h : l ≠ []) :
    ∃ out, moving_median l = some out ∧ out.length = l.length ∧
      ∀ c : ℚ, (∀ x ∈ l, x = c) → out = l := by
  match l, h with
  | x :: xs, _ =>
    refine ⟨_, rfl, ?_, ?_⟩
    · rw [win3_length]
      simp
    · intro c hc
      have hpad : ∀ y ∈ x :: (x :: xs) ++ [(x :: xs).getLastD 0], y = c := by
        intro y hy
        rcases List.mem_cons.mp hy with h1 | h1
        · exact h1 ▸ hc x (by simp)
        · rcases List.mem_append.mp h1 with h2 | h2
          · exact hc y h2
          · have h3 : y = (x :: xs).getLastD 0 := by simpa using h2
            rw [h3, getLastD_cons_eq_of_const x xs c hc]
      rw [win3_const _ c hpad]
      have hlen : (x :: (x :: xs) ++ [(x :: xs).getLastD 0]).length - 2 = (x :: xs).length := by
        simp
      rw [hlen]
      symm
      rw [List.eq_replicate_iff]
      exact ⟨rfl, hc⟩

/-- Witness for `moving_median_length_and_const` on the constant list
`[5, 5, 5]`. -/
theorem moving_median_length_and_const_witness :
    ([5, 5, 5] : List ℚ) ≠ [] ∧
    ∃ out, moving_median [5, 5, 5] = some out ∧ out.length = ([5, 5, 5] : List ℚ).length ∧
      ∀ c : ℚ, (∀ x ∈ ([5, 5, 5] : List ℚ), x = c) → out = [5, 5, 5] :=
  ⟨by simp, moving_median_length_and_const [5, 5, 5] (by simp)⟩
